import Mathlib

/-!
# Verification of `cgcloud.spark_tools.SparkTools`

A shallow embedding of the cluster-bootstrap logic in
`src/cgcloud/spark/cgcloud-spark-tools/cgcloud/spark_tools/__init__.py`.

File contents are modelled as `String`s; reading a file's lines
(`f.readlines()` followed by `str.strip()`) is modelled by splitting the
content string at newline characters and stripping whitespace from each
piece.  (Python's `readlines` omits the empty piece after a trailing
newline; that piece is the empty string, which `manage_slaves` and
`__add_host_keys` always discard before writing, so the final contents
are unaffected.)  The EC2 API and the instance-metadata service are
modelled as explicit parameters: a reservation list for directory
queries, an optional tag value for tag lookups, and exit codes for the
remote registration command.
-/

namespace SparkTools

/-- Split a character list at every occurrence of `sep`, dropping the
separators.  `splitChar sep` always returns a non-empty list of pieces;
a separator at the end yields a trailing empty piece.  This is the
semantics of Python's `str.split(sep)` for a single-character separator
(and of reading a file line by line, for `sep = '\n'`). -/
def splitChar (sep : Char) : List Char → List (List Char)
  | [] => [[]]
  | c :: cs =>
    match splitChar sep cs with
    | [] => [[c]]
    | p :: ps => if c = sep then [] :: p :: ps else (c :: p) :: ps

/-- Python `s.split(sep)` for a single-character separator. -/
def pySplit (sep : Char) (s : String) : List String :=
  (splitChar sep s.toList).map String.mk

/-- Interleave `sep` between the pieces — the characters of Python's
`sep.join(parts)` for a single-character separator. -/
def joinChar (sep : Char) : List (List Char) → List Char
  | [] => []
  | [p] => p
  | p :: ps => p ++ sep :: joinChar sep ps

/-- Python `sep.join(parts)` for a single-character separator. -/
def pyJoin (sep : Char) (parts : List String) : String :=
  String.mk (joinChar sep (parts.map String.toList))

/-- Python `s.strip()`: remove leading and trailing whitespace. -/
def pyStrip (s : String) : String :=
  String.mk (List.rdropWhile Char.isWhitespace (s.toList.dropWhile Char.isWhitespace))

/-- `set(_.strip() for _ in f.readlines())`, as a list (the set view is
taken by the canonicalization below, which deduplicates). -/
def readEntries (content : String) : List String :=
  (pySplit '\n' content).map pyStrip

/-- Lexicographic comparison of character lists by code point — the
order Python's `list.sort()` uses on (ASCII) strings. -/
def lexLe : List Char → List Char → Bool
  | [], _ => true
  | _ :: _, [] => false
  | a :: as, b :: bs => if a < b then true else if b < a then false else lexLe as bs

/-- Python's string ordering, as a relation on `String`. -/
def strLe (a b : String) : Prop := lexLe a.toList b.toList = true

instance : DecidableRel strLe := fun a b => by unfold strLe; infer_instance

/-- The canonicalization shared by `manage_slaves` and `__add_host_keys`
(lines 104-107 resp. 210-213 of `spark_tools/__init__.py`): put the
entries in a set, discard the empty string, sort ascending.  Modelled on
lists: discard `""`, deduplicate, sort. -/
def canonList (entries : List String) : List String :=
  List.insertionSort strLe ((entries.filter (· ≠ "")).dedup)

/-- Canonicalize and serialize: sort the set, `append('')`,
`'\n'.join(...)` (lines 104-110 resp. 210-216). -/
def writeCanon (entries : List String) : String :=
  pyJoin '\n' (canonList entries ++ [""])

/-- `entry.split(':')[0]` — the IP portion of an `ip:algo:key` entry
(line 95).  `pySplit` never returns `[]`, so `headI` is the same as
Python's `[0]`. -/
def ipPart (entry : String) : String := (pySplit ':' entry).headI

/-- `' '.join(entry.split(':'))` — the known-hosts line derived from an
`ip:algo:key` entry (line 209). -/
def keyLine (entry : String) : String := pyJoin ' ' (pySplit ':' entry)

/-- `SparkTools.__add_host_keys` (lines 199-216): read the known-hosts
file, union in the colon-to-space converted entries, canonicalize,
truncate and rewrite.  Returns the new file content. -/
def add_host_keys (knownHosts : String) (host_keys : List String) : String :=
  writeCanon (readEntries knownHosts ++ host_keys.map keyLine)

/-- An EC2 instance as seen through `get_all_reservations`: only the
fields the code reads. -/
structure Ec2Instance where
  id : String
  private_ip : String
deriving DecidableEq

/-- `SparkTools.manage_slaves` (lines 86-113).  `slavesToAdd = []`
models a falsy `slaves_to_add` (`None` or an empty list).  The file
system and EC2 are explicit: `slavesContent` / `knownHosts` are the
current contents of the slaves file and the known-hosts file, and
`reservations` is the result of the
`get_all_reservations(filters={tag:spark_master: master_id})` query.
Returns the new contents of the two files. -/
def manage_slaves (masterId : String) (slavesToAdd : List String)
    (slavesContent knownHosts : String)
    (reservations : List (List Ec2Instance)) : String × String :=
  if slavesToAdd ≠ [] then
    (writeCanon (readEntries slavesContent ++ slavesToAdd.map ipPart),
     add_host_keys knownHosts slavesToAdd)
  else
    (writeCanon (((reservations.flatten).filter
        (fun i => i.id ≠ masterId)).map Ec2Instance.private_ip),
     knownHosts)

/-- `SparkTools.master_ip` (lines 175-189).  The EC2 query
`get_all_reservations(instance_ids=[master_id])` is the `reservations`
parameter; the metadata facts `master_id`, `instance_id` and `node_ip`
are parameters too.  The first component is the resulting master IP,
`none` standing for the fatal error raised when the filtered instance
list does not have exactly one element (`next` raising `StopIteration`
on zero matches, the `assert` failing on two or more).  The second
component counts the EC2 directory queries issued. -/
def master_ip (masterId instanceId nodeIp : String)
    (reservations : List (List Ec2Instance)) : Option String × Nat :=
  if masterId = instanceId then
    (some nodeIp, 0)
  else
    ((match (reservations.flatten).filter (fun i => i.id = masterId) with
      | [i] => some i.private_ip
      | _ => none), 1)

/-- `'a' ≤ c ≤ 'z'` — the character class `[a-z]` of the region pattern. -/
def isLowerAlpha (c : Char) : Bool := 'a' ≤ c && c ≤ 'z'

/-- `'0' ≤ c ≤ '9'` — the character class `[0-9]` of the region pattern. -/
def isDigit09 (c : Char) : Bool := '0' ≤ c && c ≤ '9'

/-- Tail of the region pattern, `([a-z])$`: one lowercase letter
followed by the end of the string.  In Python's `re` (no `MULTILINE`),
`$` matches at the end of the string and also just before a single
newline at the end of the string, so the remainder after the letter may
be empty or one `'\n'`. -/
def regionEnd : List Char → Bool
  | [z] => isLowerAlpha z
  | [z, '\n'] => isLowerAlpha z
  | _ => false

/-- `[1-9]` followed by the rest: the leading digit of the zone
number. -/
def regionNum : List Char → Option (Char × List Char)
  | d :: rest2 => if '1' ≤ d && d ≤ '9' then some (d, rest2) else none
  | _ => none

/-- The literal `-` before the zone number. -/
def regionDash : List Char → Option (Char × List Char)
  | '-' :: tail => regionNum tail
  | _ => none

/-- `SparkTools.region` (lines 150-157): match the availability zone
against `^([a-z]\x7b2\x7d-[a-z]+-[1-9][0-9]*)([a-z])$` and return the first
capture group; `none` models the failing `assert m` on a non-match.
Greedy scanning (`takeWhile`/`dropWhile`) without backtracking is
faithful here because the character classes `[a-z]`/`[0-9]` are
disjoint from the characters that follow them in the pattern. -/
def regionList : List Char → Option (List Char)
  | c1 :: c2 :: '-' :: rest =>
    if isLowerAlpha c1 && isLowerAlpha c2 then
      if rest.takeWhile isLowerAlpha ≠ [] then
        match regionDash (rest.dropWhile isLowerAlpha) with
        | some (d, rest2) =>
          if regionEnd (rest2.dropWhile isDigit09) then
            some (c1 :: c2 :: '-' :: rest.takeWhile isLowerAlpha
              ++ '-' :: d :: rest2.takeWhile isDigit09)
          else none
        | none => none
      else none
    else none
  | _ => none

/-- `SparkTools.region` on the zone string. -/
def region (zone : String) : Option String :=
  (regionList zone.toList).map String.mk

/-- The retry loop of `SparkTools.__register_with_master`
(lines 233-243), parameterized by the exit code of each `ssh` attempt.
`registerRun status i n` runs up to `n` further attempts starting with
attempt `i`; it returns whether an attempt exited with 0 (the `return`)
and how many attempts were made.  The exhausted loop raises
`RuntimeError("Failed to register with master")`, modelled by the
`false` flag. -/
def registerRun (status : Nat → Int) : Nat → Nat → Bool × Nat
  | _, 0 => (false, 0)
  | i, n + 1 =>
    if status i = 0 then (true, 1)
    else
      let r := registerRun status (i + 1) n
      (r.1, r.2 + 1)

/-- `SparkTools.__register_with_master` (lines 233-243):
`for tries in range( 5 )` — five attempts starting at attempt 0. -/
def register_with_master (status : Nat → Int) : Bool × Nat :=
  registerRun status 0 5

/-- `SparkTools.__get_master_host_key` (lines 191-197): the
`ssh_host_key` tag of the master (`none` when absent) and the current
known-hosts content; returns the new known-hosts content.  A missing
tag only logs a warning and leaves the file untouched. -/
def get_master_host_key (masterHostKey : Option String)
    (knownHosts : String) : String :=
  match masterHostKey with
  | some key => add_host_keys knownHosts ["spark-master:" ++ key]
  | none => knownHosts

/-- The lines of `/etc/hosts` kept by `SparkTools.__patch_etc_hosts`
(lines 276-278): those in which no alias of `hosts` occurs as a
substring (Python's `host in line`). -/
def keptLines (hosts : List (String × Option String))
    (lines : List String) : List String :=
  lines.filter fun line => !(hosts.any fun h => decide (h.1.toList <:+: line.toList))

/-- The lines appended by `SparkTools.__patch_etc_hosts`
(lines 279-280): `"%s %s\n" % (ip, host)` for every alias whose IP is
present. -/
def appendedHostLines (hosts : List (String × Option String)) : List String :=
  hosts.filterMap fun h => h.2.map fun ip => ip ++ " " ++ h.1 ++ "\n"

/-- `SparkTools.__patch_etc_hosts` (lines 272-283).  `hosts` models the
`hosts` dict as an association list (iteration order made explicit);
`lines` is `etc_hosts.readlines()` — the file's lines, each including
its trailing newline.  Returns the lines written back. -/
def patch_etc_hosts (hosts : List (String × Option String))
    (lines : List String) : List String :=
  keptLines hosts lines ++ appendedHostLines hosts

/-- An entry that survives the write/read cycle unchanged: stripping is
the identity on it and it contains no newline. -/
def cleanStr (s : String) : Prop := pyStrip s = s ∧ '\n' ∉ s.toList

instance (s : String) : Decidable (cleanStr s) := by unfold cleanStr; infer_instance

/-- The language of the availability-zone pattern
`^([a-z]\x7b2\x7d-[a-z]+-[1-9][0-9]*)([a-z])$`, spelled out as a
decomposition of the character list.  Per Python `re` semantics, `$`
also matches just before a single trailing newline, so after the final
letter the string may end or carry one `'\n'`. -/
def zoneMatches (zone : String) : Prop :=
  ∃ (c1 c2 : Char) (word : List Char) (d : Char) (digits : List Char) (z : Char)
    (nl : List Char),
    zone.toList = c1 :: c2 :: '-' :: word ++ '-' :: d :: digits ++ z :: nl ∧
    isLowerAlpha c1 = true ∧ isLowerAlpha c2 = true ∧
    word ≠ [] ∧ (∀ c ∈ word, isLowerAlpha c = true) ∧
    '1' ≤ d ∧ d ≤ '9' ∧ (∀ c ∈ digits, isDigit09 c = true) ∧ isLowerAlpha z = true ∧
    (nl = [] ∨ nl = ['\n'])

/-- Iterated slave registration: fold `manage_slaves` (merge branch)
over a list of batches, tracking only the slaves-file content. -/
def applyBatches (masterId knownHosts : String)
    (reservations : List (List Ec2Instance))
    (content : String) (batches : List (List String)) : String :=
  batches.foldl
    (fun c b => (manage_slaves masterId b c knownHosts reservations).1) content

section OrderLemmas

theorem lexLe_refl (as : List Char) : lexLe as as = true := by
  induction as with
  | nil => rfl
  | cons a as ih => simp [lexLe, lt_irrefl, ih]

theorem lexLe_total : ∀ as bs : List Char, lexLe as bs = true ∨ lexLe bs as = true := by
  intro as
  induction as with
  | nil => intro bs; left; rfl
  | cons a as ih =>
    intro bs
    cases bs with
    | nil => right; rfl
    | cons b bs =>
      by_cases hab : a < b
      · left; simp [lexLe, hab]
      · by_cases hba : b < a
        · right; simp [lexLe, hba]
        · have hab' : a = b := le_antisymm (not_lt.1 hba) (not_lt.1 hab)
          subst hab'
          simpa [lexLe, lt_irrefl] using ih bs

theorem lexLe_trans :
    ∀ as bs cs : List Char, lexLe as bs = true → lexLe bs cs = true → lexLe as cs = true := by
  intro as
  induction as with
  | nil => intro bs cs _ _; rfl
  | cons a as ih =>
    intro bs cs h1 h2
    cases bs with
    | nil => simp [lexLe] at h1
    | cons b bs =>
      cases cs with
      | nil => simp [lexLe] at h2
      | cons c cs =>
        simp only [lexLe] at h1 h2 ⊢
        by_cases hab : a < b
        · by_cases hbc : b < c
          · simp [lt_trans hab hbc]
          · by_cases hcb : c < b
            · simp [hbc, hcb] at h2
            · have hbc' : b = c := le_antisymm (not_lt.1 hcb) (not_lt.1 hbc)
              subst hbc'; simp [hab]
        · by_cases hba : b < a
          · simp [hab, hba] at h1
          · have hab' : a = b := le_antisymm (not_lt.1 hba) (not_lt.1 hab)
            subst hab'
            by_cases hac : a < c
            · simp [hac]
            · by_cases hca : c < a
              · simp [hac, hca] at h2
              · have hac' : a = c := le_antisymm (not_lt.1 hca) (not_lt.1 hac)
                subst hac'
                simp only [lt_irrefl, if_false] at h1 h2 ⊢
                exact ih bs cs h1 h2

theorem lexLe_antisymm :
    ∀ as bs : List Char, lexLe as bs = true → lexLe bs as = true → as = bs := by
  intro as
  induction as with
  | nil =>
    intro bs h1 h2
    cases bs with
    | nil => rfl
    | cons b bs => simp [lexLe] at h2
  | cons a as ih =>
    intro bs h1 h2
    cases bs with
    | nil => simp [lexLe] at h1
    | cons b bs =>
      simp only [lexLe] at h1 h2
      by_cases hab : a < b
      · simp [hab, asymm hab] at h2
      · by_cases hba : b < a
        · simp [hab, hba] at h1
        · have hab' : a = b := le_antisymm (not_lt.1 hba) (not_lt.1 hab)
          subst hab'
          simp only [lt_irrefl, if_false] at h1 h2
          exact congrArg (a :: ·) (ih bs h1 h2)

instance : IsTotal String strLe := ⟨fun a b => lexLe_total a.toList b.toList⟩

instance : IsTrans String strLe :=
  ⟨fun a b c => lexLe_trans a.toList b.toList c.toList⟩

instance : IsAntisymm String strLe :=
  ⟨fun a b h1 h2 => by
    have h := lexLe_antisymm a.toList b.toList h1 h2
    cases a; cases b; exact congrArg String.mk (by simpa [String.toList] using h)⟩

theorem canonList_sorted (l : List String) : List.Sorted strLe (canonList l) :=
  List.sorted_insertionSort strLe _

theorem canonList_nodup (l : List String) : (canonList l).Nodup :=
  (List.perm_insertionSort strLe _).nodup_iff.2 (List.nodup_dedup _)

theorem mem_canonList {s : String} {l : List String} :
    s ∈ canonList l ↔ s ∈ l ∧ s ≠ "" := by
  unfold canonList
  rw [(List.perm_insertionSort strLe _).mem_iff]
  simp [List.mem_filter, and_comm]

theorem canonList_eq_of_mem_iff {l1 l2 : List String}
    (h : ∀ s, s ≠ "" → (s ∈ l1 ↔ s ∈ l2)) : canonList l1 = canonList l2 :=
  List.eq_of_perm_of_sorted
    ((List.perm_ext_iff_of_nodup (canonList_nodup _) (canonList_nodup _)).2
      (by
        intro s
        simp only [mem_canonList]
        constructor
        · rintro ⟨hs, hne⟩; exact ⟨(h s hne).1 hs, hne⟩
        · rintro ⟨hs, hne⟩; exact ⟨(h s hne).2 hs, hne⟩))
    (canonList_sorted _) (canonList_sorted _)

end OrderLemmas

section SplitJoinLemmas

theorem toList_mk (cs : List Char) : (String.mk cs).toList = cs := rfl

theorem mk_toList (s : String) : String.mk s.toList = s := rfl

theorem splitChar_ne_nil (sep : Char) (cs : List Char) : splitChar sep cs ≠ [] := by
  induction cs with
  | nil => simp [splitChar]
  | cons c cs ih =>
    simp only [splitChar]
    cases h : splitChar sep cs with
    | nil => simp
    | cons p ps => by_cases hc : c = sep <;> simp [hc]

theorem not_mem_of_mem_splitChar (sep : Char) :
    ∀ cs p, p ∈ splitChar sep cs → sep ∉ p := by
  intro cs
  induction cs with
  | nil =>
    intro p hp
    simp only [splitChar, List.mem_singleton] at hp
    subst hp; simp
  | cons c cs ih =>
    intro p hp
    simp only [splitChar] at hp
    cases h : splitChar sep cs with
    | nil => exact absurd h (splitChar_ne_nil sep cs)
    | cons q qs =>
      rw [h] at hp
      by_cases hc : c = sep
      · simp only [hc, if_true, List.mem_cons] at hp
        rcases hp with hp | hp | hp
        · subst hp; simp
        · exact ih p (by rw [h]; exact hp ▸ List.mem_cons_self q qs)
        · exact ih p (by rw [h]; exact List.mem_cons_of_mem q hp)
      · simp only [hc, if_false, List.mem_cons] at hp
        rcases hp with hp | hp
        · subst hp
          simp only [List.mem_cons, not_or]
          exact ⟨fun hsc => hc hsc.symm,
            ih q (by rw [h]; exact List.mem_cons_self q qs)⟩
        · exact ih p (by rw [h]; exact List.mem_cons_of_mem q hp)

theorem splitChar_eq_single (sep : Char) (cs : List Char) (h : sep ∉ cs) :
    splitChar sep cs = [cs] := by
  induction cs with
  | nil => rfl
  | cons c cs ih =>
    simp only [List.mem_cons, not_or] at h
    have hcs : ¬c = sep := fun hc => h.1 hc.symm
    simp only [splitChar, ih h.2]
    simp [hcs]

theorem splitChar_append (sep : Char) (as bs : List Char) :
    splitChar sep (as ++ sep :: bs) = splitChar sep as ++ splitChar sep bs := by
  induction as with
  | nil =>
    cases h : splitChar sep bs with
    | nil => exact absurd h (splitChar_ne_nil sep bs)
    | cons q qs => simp [splitChar, h]
  | cons a as ih =>
    simp only [List.cons_append, splitChar, List.append_eq]
    rw [ih]
    cases h : splitChar sep as with
    | nil => exact absurd h (splitChar_ne_nil sep as)
    | cons q qs => by_cases ha : a = sep <;> simp [ha]

theorem splitChar_joinChar (sep : Char) :
    ∀ parts, parts ≠ [] →
      splitChar sep (joinChar sep parts) = (parts.map (splitChar sep)).flatten := by
  intro parts
  induction parts with
  | nil => intro h; exact absurd rfl h
  | cons p ps ih =>
    intro _
    cases ps with
    | nil => simp [joinChar]
    | cons q qs =>
      rw [show joinChar sep (p :: q :: qs) = p ++ sep :: joinChar sep (q :: qs) from rfl,
        splitChar_append, ih (by simp)]
      simp

theorem flatten_singletons {α : Type} (l : List α) :
    (l.map (fun x => [x])).flatten = l := by
  induction l <;> simp_all

/-- Splitting undoes joining when no piece contains the separator. -/
theorem pySplit_pyJoin (sep : Char) (parts : List String) (hne : parts ≠ [])
    (h : ∀ p ∈ parts, sep ∉ p.toList) : pySplit sep (pyJoin sep parts) = parts := by
  unfold pySplit pyJoin
  rw [toList_mk, splitChar_joinChar _ _ (by simpa using hne)]
  have h1 : (parts.map String.toList).map (splitChar sep)
      = (parts.map String.toList).map (fun p => [p]) := by
    apply List.map_congr_left
    intro p hp
    obtain ⟨t, ht, rfl⟩ := List.mem_map.1 hp
    exact splitChar_eq_single sep _ (h t ht)
  rw [h1, flatten_singletons, List.map_map,
    show parts.map (String.mk ∘ String.toList) = parts.map id from
      List.map_congr_left (fun s _ => mk_toList s), List.map_id]

end SplitJoinLemmas

section StripLemmas

theorem pyStrip_subset {c : Char} {s : String} (h : c ∈ (pyStrip s).toList) :
    c ∈ s.toList := by
  unfold pyStrip at h
  rw [toList_mk] at h
  exact (List.dropWhile_suffix _).sublist.subset
    ((List.rdropWhile_prefix _ _).sublist.subset h)

theorem dropWhile_eq_self_of_starts {α : Type} {p : α → Bool} {R A : List α}
    (hpre : R <+: A) (h : A.dropWhile p = A) : R.dropWhile p = R := by
  obtain ⟨t, rfl⟩ := hpre
  cases R with
  | nil => rfl
  | cons c R' =>
    rw [List.cons_append] at h
    rw [List.dropWhile_cons] at h ⊢
    by_cases hc : p c
    · simp only [hc, if_true] at h
      have hlen := congrArg List.length h
      have hle := (List.dropWhile_suffix (l := R' ++ t) p).sublist.length_le
      simp only [List.length_cons, List.length_append] at hlen hle
      omega
    · simp [hc]

theorem pyStrip_idem (s : String) : pyStrip (pyStrip s) = pyStrip s := by
  unfold pyStrip
  rw [toList_mk]
  congr 1
  have hA : List.dropWhile Char.isWhitespace
      (List.dropWhile Char.isWhitespace s.toList)
      = List.dropWhile Char.isWhitespace s.toList := List.dropWhile_idempotent _ _
  rw [dropWhile_eq_self_of_starts (List.rdropWhile_prefix _ _) hA,
    List.rdropWhile_idempotent]

theorem pyStrip_empty : pyStrip "" = "" := rfl

/-- Entries read back from a file are fixed points of stripping and
contain no newline. -/
theorem cleanStr_of_mem_readEntries {s : String} {c : String}
    (h : s ∈ readEntries c) : cleanStr s := by
  unfold readEntries at h
  obtain ⟨t, ht, rfl⟩ := List.mem_map.1 h
  refine ⟨pyStrip_idem t, ?_⟩
  unfold pySplit at ht
  obtain ⟨p, hp, rfl⟩ := List.mem_map.1 ht
  intro hmem
  exact not_mem_of_mem_splitChar '\n' _ p hp (by
    have := pyStrip_subset hmem
    rwa [toList_mk] at this)

end StripLemmas

section RoundTripLemmas

/-- Reading back a canonically written file yields exactly the sorted
entries plus the trailing empty entry, provided every entry is clean. -/
theorem readEntries_writeCanon (l : List String)
    (h : ∀ s ∈ canonList l, cleanStr s) :
    readEntries (writeCanon l) = canonList l ++ [""] := by
  unfold readEntries writeCanon
  rw [pySplit_pyJoin _ _ (by simp) ?hnl]
  case hnl =>
    intro p hp
    rcases List.mem_append.1 hp with hp | hp
    · exact (h p hp).2
    · simp only [List.mem_singleton] at hp
      subst hp
      simp [String.toList]
  rw [show (canonList l ++ [""]).map pyStrip = (canonList l ++ [""]).map id from
    List.map_congr_left ?_, List.map_id]
  intro s hs
  rcases List.mem_append.1 hs with hs | hs
  · exact (h s hs).1
  · simp only [List.mem_singleton] at hs
    subst hs
    exact pyStrip_empty

/-- A clean non-empty entry written by the canonicalization survives a
read, regardless of what the other entries look like. -/
theorem mem_readEntries_writeCanon {s : String} {l : List String}
    (hmem : s ∈ l) (hne : s ≠ "") (hclean : cleanStr s) :
    s ∈ readEntries (writeCanon l) := by
  have hs : s ∈ canonList l := mem_canonList.2 ⟨hmem, hne⟩
  unfold readEntries writeCanon pySplit pyJoin
  rw [toList_mk, splitChar_joinChar _ _ (by simp)]
  refine List.mem_map.2 ⟨s, ?_, hclean.1⟩
  refine List.mem_map.2 ⟨s.toList, ?_, mk_toList s⟩
  apply List.mem_flatten.2
  refine ⟨[s.toList], ?_, by simp⟩
  exact List.mem_map.2
    ⟨s.toList, List.mem_map.2 ⟨s, by simp [hs], rfl⟩, splitChar_eq_single _ _ hclean.2⟩

/-- Appending to a freshly read canonical file has the same canonical
set as appending to the entries that were written. -/
theorem canonList_readEntries_writeCanon_append (l X : List String)
    (h : ∀ s ∈ canonList l, cleanStr s) :
    canonList (readEntries (writeCanon l) ++ X) = canonList (l ++ X) := by
  apply canonList_eq_of_mem_iff
  intro s hne
  rw [readEntries_writeCanon l h]
  simp only [List.mem_append, mem_canonList, List.mem_singleton]
  constructor
  · rintro ((⟨hs, _⟩ | hs) | hs)
    · exact Or.inl hs
    · exact absurd hs hne
    · exact Or.inr hs
  · rintro (hs | hs)
    · exact Or.inl (Or.inl ⟨hs, hne⟩)
    · exact Or.inr hs

end RoundTripLemmas

section ScanLemmas

theorem takeWhile_append_cons {α : Type} (p : α → Bool) (xs : List α) (y : α)
    (rest : List α) (hxs : ∀ x ∈ xs, p x = true) (hy : p y = false) :
    List.takeWhile p (xs ++ y :: rest) = xs := by
  induction xs with
  | nil => simp [List.takeWhile_cons, hy]
  | cons x xs ih =>
    have hx := hxs x (List.mem_cons_self x xs)
    simp [List.takeWhile_cons, hx,
      ih (fun a ha => hxs a (List.mem_cons_of_mem x ha))]

theorem dropWhile_append_cons {α : Type} (p : α → Bool) (xs : List α) (y : α)
    (rest : List α) (hxs : ∀ x ∈ xs, p x = true) (hy : p y = false) :
    List.dropWhile p (xs ++ y :: rest) = y :: rest := by
  induction xs with
  | nil => simp [List.dropWhile_cons, hy]
  | cons x xs ih =>
    have hx := hxs x (List.mem_cons_self x xs)
    simp [List.dropWhile_cons, hx,
      ih (fun a ha => hxs a (List.mem_cons_of_mem x ha))]

end ScanLemmas

section RegisterLemmas

theorem registerRun_attempts_le (status : Nat → Int) :
    ∀ n i, (registerRun status i n).2 ≤ n := by
  intro n
  induction n with
  | zero => intro i; simp [registerRun]
  | succ n ih =>
    intro i
    simp only [registerRun]
    by_cases h : status i = 0
    · simp [h]
    · simp only [h, if_false]
      exact Nat.succ_le_succ (ih (i + 1))

theorem registerRun_true_iff (status : Nat → Int) :
    ∀ n i, (registerRun status i n).1 = true ↔ ∃ k, k < n ∧ status (i + k) = 0 := by
  intro n
  induction n with
  | zero => intro i; simp [registerRun]
  | succ n ih =>
    intro i
    simp only [registerRun]
    by_cases h : status i = 0
    · simp only [h, if_true]
      constructor
      · intro _
        exact ⟨0, Nat.succ_pos n, by simpa using h⟩
      · intro _
        simp
    · simp only [h, if_false]
      rw [ih (i + 1)]
      constructor
      · rintro ⟨k, hk, hs⟩
        exact ⟨k + 1, Nat.succ_lt_succ hk, by rwa [show i + (k + 1) = i + 1 + k by omega]⟩
      · rintro ⟨k, hk, hs⟩
        cases k with
        | zero => exact absurd (by simpa using hs) h
        | succ k =>
          exact ⟨k, Nat.lt_of_succ_lt_succ hk,
            by rwa [show i + 1 + k = i + (k + 1) by omega]⟩

theorem registerRun_false_attempts (status : Nat → Int) :
    ∀ n i, (registerRun status i n).1 = false → (registerRun status i n).2 = n := by
  intro n
  induction n with
  | zero => intro i _; simp [registerRun]
  | succ n ih =>
    intro i h
    simp only [registerRun] at h ⊢
    by_cases hs : status i = 0
    · simp [hs] at h
    · simp only [hs, if_false] at h ⊢
      exact congrArg (· + 1) (ih (i + 1) h)

theorem registerRun_first_success (status : Nat → Int) :
    ∀ n i k, k < n → status (i + k) = 0 → (∀ j, j < k → status (i + j) ≠ 0) →
      registerRun status i n = (true, k + 1) := by
  intro n
  induction n with
  | zero => intro i k hk; omega
  | succ n ih =>
    intro i k hk h0 hprev
    simp only [registerRun]
    cases k with
    | zero =>
      simp only [Nat.add_zero] at h0
      simp [h0]
    | succ k =>
      have hi : status i ≠ 0 := by
        have := hprev 0 (Nat.succ_pos k)
        simpa using this
      simp only [hi, if_false]
      rw [ih (i + 1) k (Nat.lt_of_succ_lt_succ hk)
        (by rwa [show i + 1 + k = i + (k + 1) by omega])
        (fun j hj => by
          rw [show i + 1 + j = i + (j + 1) by omega]
          exact hprev (j + 1) (Nat.succ_lt_succ hj))]

end RegisterLemmas

section ClaimC3

/-- C3: the worker registration step attempts the remote registration
command at most 5 times; it succeeds (with no error) exactly when one of
the first 5 attempts exits with code 0; if all 5 attempts return
non-zero, the `RuntimeError` (`RegistrationFailed`) is raised after
exactly 5 attempts; and a first success at attempt `k` stops the loop
immediately, after `k + 1` attempts. -/
theorem claim_C3_register_retry (status : Nat → Int) :
    (register_with_master status).2 ≤ 5 ∧
    ((register_with_master status).1 = true ↔ ∃ k, k < 5 ∧ status k = 0) ∧
    ((∀ k, k < 5 → status k ≠ 0) → register_with_master status = (false, 5)) ∧
    (∀ k, k < 5 → status k = 0 → (∀ j, j < k → status j ≠ 0) →
      register_with_master status = (true, k + 1)) := by
  refine ⟨registerRun_attempts_le status 5 0, ?_, ?_, ?_⟩
  · simpa using registerRun_true_iff status 5 0
  · intro hall
    have hf : (register_with_master status).1 = false := by
      rw [Bool.eq_false_iff]
      intro ht
      obtain ⟨k, hk, h0⟩ := (registerRun_true_iff status 5 0).1 ht
      exact hall k hk (by simpa using h0)
    have h2 := registerRun_false_attempts status 5 0 hf
    rw [Prod.ext_iff]
    exact ⟨hf, h2⟩
  · intro k hk h0 hprev
    exact registerRun_first_success status 5 0 k hk (by simpa using h0)
      (fun j hj => by simpa using hprev j hj)

/-- Witness for C3: failing 4 times and succeeding on the 5th attempt
succeeds after exactly 5 attempts; failing all 5 raises after exactly
5 attempts. -/
theorem claim_C3_register_retry_witness :
    register_with_master (fun i => if i < 4 then 1 else 0) = (true, 5) ∧
    register_with_master (fun _ => 1) = (false, 5) :=
  ⟨(claim_C3_register_retry (fun i => if i < 4 then 1 else 0)).2.2.2 4 (by decide)
      (by decide) (by decide),
    (claim_C3_register_retry (fun _ => 1)).2.2.1 (by decide)⟩

end ClaimC3

section ClaimC4C7

/-- C4: when this node is not the master, `master_ip` issues exactly one
directory query; if the query's flattened and filtered instance list has
exactly one element, the result is that instance's private IP; zero
matches or two or more matches are a fatal error (`None`). -/
theorem claim_C4_master_ip_slave (masterId instanceId nodeIp : String)
    (reservations : List (List Ec2Instance)) (h : masterId ≠ instanceId) :
    (master_ip masterId instanceId nodeIp reservations).2 = 1 ∧
    (∀ inst, (reservations.flatten).filter (fun i => i.id = masterId) = [inst] →
      (master_ip masterId instanceId nodeIp reservations).1 = some inst.private_ip) ∧
    ((reservations.flatten).filter (fun i => i.id = masterId) = [] →
      (master_ip masterId instanceId nodeIp reservations).1 = none) ∧
    (∀ inst1 inst2 rest,
      (reservations.flatten).filter (fun i => i.id = masterId)
          = inst1 :: inst2 :: rest →
      (master_ip masterId instanceId nodeIp reservations).1 = none) := by
  unfold master_ip
  rw [if_neg h]
  refine ⟨rfl, ?_, ?_, ?_⟩
  · intro inst hinst
    simp only [hinst]
  · intro hnil
    simp only [hnil]
  · intro inst1 inst2 rest hcons
    simp only [hcons]

/-- Witness for C4: one match yields its private IP, zero and two
matches are errors. -/
theorem claim_C4_master_ip_slave_witness :
    (master_ip "i-m" "i-w" "10.0.0.7"
        [[⟨"i-m", "10.0.0.1"⟩], [⟨"i-x", "10.0.0.9"⟩]]).1 = some "10.0.0.1" ∧
    (master_ip "i-m" "i-w" "10.0.0.7" []).1 = none ∧
    (master_ip "i-m" "i-w" "10.0.0.7"
        [[⟨"i-m", "10.0.0.1"⟩, ⟨"i-m", "10.0.0.2"⟩]]).1 = none :=
  ⟨(claim_C4_master_ip_slave "i-m" "i-w" "10.0.0.7"
        [[⟨"i-m", "10.0.0.1"⟩], [⟨"i-x", "10.0.0.9"⟩]] (by decide)).2.1
      ⟨"i-m", "10.0.0.1"⟩ (by decide),
    (claim_C4_master_ip_slave "i-m" "i-w" "10.0.0.7" [] (by decide)).2.2.1 (by decide),
    (claim_C4_master_ip_slave "i-m" "i-w" "10.0.0.7"
        [[⟨"i-m", "10.0.0.1"⟩, ⟨"i-m", "10.0.0.2"⟩]] (by decide)).2.2.2
      ⟨"i-m", "10.0.0.1"⟩ ⟨"i-m", "10.0.0.2"⟩ [] (by decide)⟩

/-- C7: when this node is the master, `master_ip` is the node's own IP
and no directory query is issued (query count 0), whatever the
directory contains. -/
theorem claim_C7_master_ip_self (masterId instanceId nodeIp : String)
    (reservations : List (List Ec2Instance)) (h : masterId = instanceId) :
    master_ip masterId instanceId nodeIp reservations = (some nodeIp, 0) := by
  unfold master_ip
  rw [if_pos h]

/-- Witness for C7: the node's own IP is returned with zero queries even
though the directory holds a different IP for the master ID. -/
theorem claim_C7_master_ip_self_witness :
    master_ip "i-m" "i-m" "10.0.0.7" [[⟨"i-m", "10.0.0.1"⟩]]
      = (some "10.0.0.7", 0) :=
  claim_C7_master_ip_self "i-m" "i-m" "10.0.0.7" [[⟨"i-m", "10.0.0.1"⟩]] rfl

end ClaimC4C7

section MergeLemmas

theorem writeCanon_congr {l1 l2 : List String} (h : canonList l1 = canonList l2) :
    writeCanon l1 = writeCanon l2 := by
  unfold writeCanon
  rw [h]

theorem manage_slaves_merge (masterId slavesContent knownHosts : String)
    (reservations : List (List Ec2Instance)) (slavesToAdd : List String)
    (h : slavesToAdd ≠ []) :
    (manage_slaves masterId slavesToAdd slavesContent knownHosts reservations).1
      = writeCanon (readEntries slavesContent ++ slavesToAdd.map ipPart) := by
  unfold manage_slaves
  rw [if_pos h]

theorem applyBatches_cons (m kh : String) (res : List (List Ec2Instance))
    (c : String) (b : List String) (bs : List (List String)) :
    applyBatches m kh res c (b :: bs)
      = applyBatches m kh res ((manage_slaves m b c kh res).1) bs := rfl

/-- Folding merge calls equals one canonical write of the pre-existing
entries plus all added IP portions, provided every batch is non-empty
(so the merge branch is taken) and every added IP portion is clean. -/
theorem applyBatches_eq (m kh : String) (res : List (List Ec2Instance)) :
    ∀ (batches : List (List String)) (content : String), batches ≠ [] →
      (∀ b ∈ batches, b ≠ []) →
      (∀ e ∈ batches.flatten, cleanStr (ipPart e)) →
      applyBatches m kh res content batches
        = writeCanon (readEntries content ++ (batches.flatten).map ipPart) := by
  intro batches
  induction batches with
  | nil => intro c h; exact absurd rfl h
  | cons b bs ih =>
    intro content _ hb hclean
    rw [applyBatches_cons,
      manage_slaves_merge m content kh res b (hb b (List.mem_cons_self b bs))]
    cases bs with
    | nil => simp [applyBatches]
    | cons b2 bs2 =>
      rw [ih _ (by simp) (fun x hx => hb x (List.mem_cons_of_mem b hx))
        (fun e he => hclean e (by
          simp only [List.flatten_cons, List.mem_append] at he ⊢
          tauto))]
      have hcleanL : ∀ s ∈ canonList (readEntries content ++ b.map ipPart),
          cleanStr s := by
        intro s hs
        rcases List.mem_append.1 (mem_canonList.1 hs).1 with h' | h'
        · exact cleanStr_of_mem_readEntries h'
        · obtain ⟨e, he, rfl⟩ := List.mem_map.1 h'
          exact hclean e (by simp [he])
      rw [writeCanon_congr (canonList_readEntries_writeCanon_append _ _ hcleanL)]
      apply congrArg writeCanon
      simp [List.append_assoc]

end MergeLemmas

section ClaimC1C2

/-- C1: repeated merge-branch `manage_slaves` calls over any non-empty
batch list produce the canonical form: the union of all added IP
portions and the pre-existing entries, with empty strings dropped,
deduplicated, sorted, with a trailing empty entry; hence two batch
lists adding the same set of IPs (any order, any duplicates) yield the
same final slaves-file content. -/
theorem claim_C1_merge_canonical (masterId knownHosts : String)
    (reservations : List (List Ec2Instance)) (content : String)
    (batches1 batches2 : List (List String))
    (h1ne : batches1 ≠ []) (h2ne : batches2 ≠ [])
    (h1b : ∀ b ∈ batches1, b ≠ []) (h2b : ∀ b ∈ batches2, b ≠ [])
    (h1c : ∀ e ∈ batches1.flatten, cleanStr (ipPart e))
    (h2c : ∀ e ∈ batches2.flatten, cleanStr (ipPart e)) :
    applyBatches masterId knownHosts reservations content batches1
        = writeCanon (readEntries content ++ (batches1.flatten).map ipPart) ∧
    ((∀ ip, ip ∈ (batches1.flatten).map ipPart
        ↔ ip ∈ (batches2.flatten).map ipPart) →
      applyBatches masterId knownHosts reservations content batches1
        = applyBatches masterId knownHosts reservations content batches2) := by
  refine ⟨applyBatches_eq _ _ _ _ _ h1ne h1b h1c, ?_⟩
  intro hiff
  rw [applyBatches_eq _ _ _ _ _ h1ne h1b h1c,
    applyBatches_eq _ _ _ _ _ h2ne h2b h2c]
  apply writeCanon_congr
  apply canonList_eq_of_mem_iff
  intro s _
  simp only [List.mem_append]
  exact or_congr Iff.rfl (hiff s)

/-- Witness for C1: two registration sequences adding the same IPs in a
different order and with a duplicate yield the same content, which is
the sorted deduplicated union with the pre-existing entry. -/
theorem claim_C1_merge_canonical_witness :
    applyBatches "i-m" "" [] "10.0.0.9\n"
        [["10.0.0.3:rsa:CCC"], ["10.0.0.2:rsa:BBB", "10.0.0.2:rsa:BBB"]]
      = applyBatches "i-m" "" [] "10.0.0.9\n"
        [["10.0.0.2:rsa:BBB"], ["10.0.0.3:rsa:CCC"]] ∧
    applyBatches "i-m" "" [] "10.0.0.9\n"
        [["10.0.0.3:rsa:CCC"], ["10.0.0.2:rsa:BBB", "10.0.0.2:rsa:BBB"]]
      = "10.0.0.2\n10.0.0.3\n10.0.0.9\n" :=
  ⟨(claim_C1_merge_canonical "i-m" "" [] "10.0.0.9\n"
      [["10.0.0.3:rsa:CCC"], ["10.0.0.2:rsa:BBB", "10.0.0.2:rsa:BBB"]]
      [["10.0.0.2:rsa:BBB"], ["10.0.0.3:rsa:CCC"]]
      (by decide) (by decide) (by decide) (by decide) (by decide) (by decide)).2
    (by
      intro ip
      rw [show (List.flatten [["10.0.0.3:rsa:CCC"],
            ["10.0.0.2:rsa:BBB", "10.0.0.2:rsa:BBB"]]).map ipPart
          = ["10.0.0.3", "10.0.0.2", "10.0.0.2"] from by decide,
        show (List.flatten [["10.0.0.2:rsa:BBB"], ["10.0.0.3:rsa:CCC"]]).map ipPart
          = ["10.0.0.2", "10.0.0.3"] from by decide]
      simp only [List.mem_cons, List.not_mem_nil, or_false]
      tauto),
    by decide⟩

/-- C2: a merge-branch `manage_slaves` call (`registerWorkers`) never
removes an IP: every non-empty entry present in the slaves file before
the call is still present after it. -/
theorem claim_C2_membership_monotonic (masterId slavesContent knownHosts : String)
    (reservations : List (List Ec2Instance)) (slavesToAdd : List String)
    (hadd : slavesToAdd ≠ []) (ip : String)
    (hip : ip ∈ readEntries slavesContent) (hne : ip ≠ "") :
    ip ∈ readEntries
      (manage_slaves masterId slavesToAdd slavesContent knownHosts reservations).1 := by
  rw [manage_slaves_merge _ _ _ _ _ hadd]
  exact mem_readEntries_writeCanon (List.mem_append.2 (Or.inl hip)) hne
    (cleanStr_of_mem_readEntries hip)

/-- Witness for C2: the previously present IP 10.0.0.9 survives the
registration of 10.0.0.2. -/
theorem claim_C2_membership_monotonic_witness :
    "10.0.0.9" ∈ readEntries
      (manage_slaves "i-m" ["10.0.0.2:rsa:BBB"] "10.0.0.9\n" "" []).1 :=
  claim_C2_membership_monotonic "i-m" "10.0.0.9\n" "" [] ["10.0.0.2:rsa:BBB"]
    (by decide) "10.0.0.9" (by decide) (by decide)

end ClaimC1C2

section ClaimC9

/-- C9: a falsy `slaves_to_add` takes the initialization branch: the
slaves file is replaced by the directory enumeration (instances tagged
with the master's ID, excluding the master itself), so a previously
present IP that the enumeration does not contain is removed — the empty
input is not a no-op union. -/
theorem claim_C9_empty_add_reinitializes (masterId slavesContent knownHosts : String)
    (reservations : List (List Ec2Instance))
    (hclean : ∀ ip ∈ ((reservations.flatten).filter
        (fun i => i.id ≠ masterId)).map Ec2Instance.private_ip, cleanStr ip) :
    (manage_slaves masterId [] slavesContent knownHosts reservations).1
        = writeCanon (((reservations.flatten).filter
            (fun i => i.id ≠ masterId)).map Ec2Instance.private_ip) ∧
    (∀ ip, ip ∈ readEntries slavesContent → ip ≠ "" →
      ip ∉ ((reservations.flatten).filter
          (fun i => i.id ≠ masterId)).map Ec2Instance.private_ip →
      ip ∉ readEntries
        (manage_slaves masterId [] slavesContent knownHosts reservations).1) := by
  have hbr : (manage_slaves masterId [] slavesContent knownHosts reservations).1
      = writeCanon (((reservations.flatten).filter
          (fun i => i.id ≠ masterId)).map Ec2Instance.private_ip) := by
    unfold manage_slaves
    rw [if_neg (by simp : ¬([] : List String) ≠ [])]
  refine ⟨hbr, ?_⟩
  intro ip hip hne hnotin
  rw [hbr, readEntries_writeCanon _ (fun s hs => hclean s (mem_canonList.1 hs).1)]
  intro hmem
  rcases List.mem_append.1 hmem with h' | h'
  · exact hnotin (mem_canonList.1 h').1
  · simp only [List.mem_singleton] at h'
    exact hne h'

/-- Witness for C9: the previously registered IP 10.0.0.9 is removed by
a call with an empty addition list, because the enumeration only
contains 10.0.0.5. -/
theorem claim_C9_empty_add_reinitializes_witness :
    "10.0.0.9" ∉ readEntries
      (manage_slaves "i-m" [] "10.0.0.9\n" ""
        [[⟨"i-m", "10.0.0.1"⟩, ⟨"i-w", "10.0.0.5"⟩]]).1 :=
  (claim_C9_empty_add_reinitializes "i-m" "10.0.0.9\n" ""
      [[⟨"i-m", "10.0.0.1"⟩, ⟨"i-w", "10.0.0.5"⟩]] (by decide)).2
    "10.0.0.9" (by decide) (by decide) (by decide)

end ClaimC9

section ClaimC10

/-- C10: the `/etc/hosts` patch keeps exactly those lines in which no
alias occurs as a substring anywhere in the line (not just the hostname
field), in their original order, and appends one `"ip alias\n"` line
for each alias whose IP is present. -/
theorem claim_C10_patch_etc_hosts (hosts : List (String × Option String))
    (lines : List String) :
    patch_etc_hosts hosts lines = keptLines hosts lines ++ appendedHostLines hosts ∧
    (keptLines hosts lines).Sublist lines ∧
    (∀ l ∈ lines, (l ∈ keptLines hosts lines ↔
      ∀ h ∈ hosts, ¬(h.1.toList <:+: l.toList))) ∧
    (∀ x, x ∈ appendedHostLines hosts ↔
      ∃ h ∈ hosts, ∃ ip, h.2 = some ip ∧ x = ip ++ " " ++ h.1 ++ "\n") := by
  refine ⟨rfl, List.filter_sublist _, ?_, ?_⟩
  · intro l hl
    unfold keptLines
    rw [List.mem_filter]
    simp only [hl, true_and, Bool.not_eq_true', List.any_eq_false,
      decide_eq_false_iff_not, decide_eq_true_eq]
  · intro x
    unfold appendedHostLines
    rw [List.mem_filterMap]
    constructor
    · rintro ⟨h, hh, hmap⟩
      cases ho : h.2 with
      | none => rw [ho] at hmap; simp at hmap
      | some ip =>
        rw [ho] at hmap
        simp only [Option.map_some', Option.some.injEq] at hmap
        exact ⟨h, hh, ip, ho, hmap.symm⟩
    · rintro ⟨h, hh, ip, ho, rfl⟩
      exact ⟨h, hh, by rw [ho]; rfl⟩

/-- Witness for C10: a line merely containing the alias as a substring
is dropped, an unrelated line is kept, and the fresh alias line is
appended. -/
theorem claim_C10_patch_etc_hosts_witness :
    "9.9.9.9 old spark-master alias\n"
        ∉ keptLines [("spark-master", some "10.0.0.1")]
          ["127.0.0.1 localhost\n", "9.9.9.9 old spark-master alias\n"] ∧
    "127.0.0.1 localhost\n"
        ∈ keptLines [("spark-master", some "10.0.0.1")]
          ["127.0.0.1 localhost\n", "9.9.9.9 old spark-master alias\n"] ∧
    "10.0.0.1 spark-master\n"
        ∈ appendedHostLines [("spark-master", some "10.0.0.1")] := by
  refine ⟨?_, ?_, ?_⟩
  · intro hmem
    have h := (claim_C10_patch_etc_hosts [("spark-master", some "10.0.0.1")]
        ["127.0.0.1 localhost\n", "9.9.9.9 old spark-master alias\n"]).2.2.1
      "9.9.9.9 old spark-master alias\n" (by decide)
    exact (h.1 hmem) ("spark-master", some "10.0.0.1") (by decide) (by decide)
  · exact ((claim_C10_patch_etc_hosts [("spark-master", some "10.0.0.1")]
        ["127.0.0.1 localhost\n", "9.9.9.9 old spark-master alias\n"]).2.2.1
      "127.0.0.1 localhost\n" (by decide)).2 (by decide)
  · exact ((claim_C10_patch_etc_hosts [("spark-master", some "10.0.0.1")]
        ["127.0.0.1 localhost\n", "9.9.9.9 old spark-master alias\n"]).2.2.2
      "10.0.0.1 spark-master\n").2
      ⟨("spark-master", some "10.0.0.1"), by decide, "10.0.0.1", rfl, by decide⟩

end ClaimC10

section KeyLineLemmas

theorem string_ext {a b : String} (h : a.toList = b.toList) : a = b := by
  cases a; cases b; exact congrArg String.mk h

theorem toList_append (a b : String) : (a ++ b).toList = a.toList ++ b.toList := rfl

theorem keyLine_toList (entry : String) :
    (keyLine entry).toList = joinChar ' ' (splitChar ':' entry.toList) := by
  unfold keyLine pyJoin pySplit
  rw [toList_mk, List.map_map,
    show (splitChar ':' entry.toList).map (String.toList ∘ String.mk)
        = (splitChar ':' entry.toList).map id from
      List.map_congr_left (fun p _ => rfl),
    List.map_id]

/-- Prefixing an entry with `alias:` prefixes the known-hosts line with
`alias ` (colon-to-space conversion), when the alias has no colon. -/
theorem keyLine_alias (a key : String) (h : ':' ∉ a.toList) :
    keyLine (a ++ ":" ++ key) = a ++ " " ++ keyLine key := by
  apply string_ext
  rw [keyLine_toList, toList_append, toList_append, toList_append, toList_append,
    show (":" : String).toList = [':'] from rfl,
    show (" " : String).toList = [' '] from rfl, List.append_assoc,
    show ([':'] ++ key.toList) = ':' :: key.toList from rfl,
    splitChar_append, splitChar_eq_single ':' a.toList h, keyLine_toList]
  cases hs : splitChar ':' key.toList with
  | nil => exact absurd hs (splitChar_ne_nil ':' key.toList)
  | cons q qs =>
    rw [show ([a.toList] ++ q :: qs : List (List Char)) = a.toList :: q :: qs from rfl,
      show joinChar ' ' (a.toList :: q :: qs)
          = a.toList ++ ' ' :: joinChar ' ' (q :: qs) from rfl]
    simp [List.append_assoc]

end KeyLineLemmas

section ClaimC8

/-- C8: on the worker path, an absent `ssh_host_key` tag leaves the
known-hosts file untouched (warning only); a present tag merges a
`spark-master`-aliased entry — the tag value with colons converted to
spaces, prefixed by `spark-master ` — into the file. -/
theorem claim_C8_master_host_key (knownHosts key : String) :
    get_master_host_key none knownHosts = knownHosts ∧
    keyLine ("spark-master:" ++ key) = "spark-master " ++ keyLine key ∧
    (cleanStr (keyLine ("spark-master:" ++ key)) →
      keyLine ("spark-master:" ++ key)
        ∈ readEntries (get_master_host_key (some key) knownHosts)) := by
  have halias : keyLine ("spark-master:" ++ key) = "spark-master " ++ keyLine key := by
    rw [show ("spark-master:" : String) ++ key = "spark-master" ++ ":" ++ key from
      congrArg (· ++ key) (by decide)]
    exact keyLine_alias "spark-master" key (by decide)
  refine ⟨rfl, halias, ?_⟩
  intro hclean
  unfold get_master_host_key add_host_keys
  apply mem_readEntries_writeCanon _ _ hclean
  · exact List.mem_append.2 (Or.inr (by simp))
  · intro h0
    have hl := congrArg String.toList (halias.symm.trans h0)
    rw [toList_append] at hl
    have := List.append_eq_nil.1 hl
    exact absurd this.1 (by decide)

/-- Witness for C8: with no tag the file is unchanged; with the tag
`ecdsa:AAAA` the line `spark-master ecdsa AAAA` appears in the file. -/
theorem claim_C8_master_host_key_witness :
    get_master_host_key none "x y z\n" = "x y z\n" ∧
    "spark-master ecdsa AAAA"
      ∈ readEntries (get_master_host_key (some "ecdsa:AAAA") "") := by
  refine ⟨(claim_C8_master_host_key "x y z\n" "ecdsa:AAAA").1, ?_⟩
  have h := (claim_C8_master_host_key "" "ecdsa:AAAA").2.2 (by decide)
  rwa [show keyLine ("spark-master:" ++ "ecdsa:AAAA") = "spark-master ecdsa AAAA"
    from by decide] at h

end ClaimC8

section ClaimC5

/-- C5 counterexample: registering the entry `10.0.0.5:ecdsa-sha2:AAAA`
through `manage_slaves` writes the line `10.0.0.5 ecdsa-sha2 AAAA` into
the known-hosts file, not `spark-master ecdsa-sha2 AAAA` — the
`spark-master` alias is only used for the master's own key on the
worker path, never for registered workers. -/
theorem claim_C5_counterexample :
    (manage_slaves "i-m" ["10.0.0.5:ecdsa-sha2:AAAA"] "" "" []).2
        = "10.0.0.5 ecdsa-sha2 AAAA\n" ∧
    "spark-master ecdsa-sha2 AAAA"
      ∉ readEntries (manage_slaves "i-m" ["10.0.0.5:ecdsa-sha2:AAAA"] "" "" []).2 := by
  decide

/-- C5 (amended): for every entry `ip:algo:key` merged into the
known-hosts file via the merge branch of `manage_slaves`, the file
gains the line `ip algo key` (colons converted to spaces, the IP kept
as the host name), the resulting file is sorted with no duplicate
lines, and the known-hosts update of `manage_slaves` is exactly
`__add_host_keys` applied to the entries. -/
theorem claim_C5_amended (knownHosts : String) (entries : List String)
    (hclean : ∀ e ∈ entries, cleanStr (keyLine e)) :
    (∀ masterId slavesContent reservations, entries ≠ [] →
      (manage_slaves masterId entries slavesContent knownHosts reservations).2
        = add_host_keys knownHosts entries) ∧
    (∀ e ∈ entries, keyLine e ≠ "" →
      keyLine e ∈ readEntries (add_host_keys knownHosts entries)) ∧
    List.Sorted strLe ((readEntries (add_host_keys knownHosts entries)).dropLast) ∧
    ((readEntries (add_host_keys knownHosts entries)).dropLast).Nodup := by
  have hcanon : ∀ s ∈ canonList (readEntries knownHosts ++ entries.map keyLine),
      cleanStr s := by
    intro s hs
    rcases List.mem_append.1 (mem_canonList.1 hs).1 with h' | h'
    · exact cleanStr_of_mem_readEntries h'
    · obtain ⟨e, he, rfl⟩ := List.mem_map.1 h'
      exact hclean e he
  have hre : readEntries (add_host_keys knownHosts entries)
      = canonList (readEntries knownHosts ++ entries.map keyLine) ++ [""] := by
    unfold add_host_keys
    exact readEntries_writeCanon _ hcanon
  refine ⟨?_, ?_, ?_, ?_⟩
  · intro masterId slavesContent reservations hne
    unfold manage_slaves
    rw [if_pos hne]
  · intro e he hne
    unfold add_host_keys
    exact mem_readEntries_writeCanon
      (List.mem_append.2 (Or.inr (List.mem_map_of_mem _ he))) hne (hclean e he)
  · rw [hre, List.dropLast_concat]
    exact canonList_sorted _
  · rw [hre, List.dropLast_concat]
    exact canonList_nodup _

/-- Witness for the amended C5: merging `10.0.0.5:ecdsa:AAAA` into an
empty known-hosts file makes the line `10.0.0.5 ecdsa AAAA` appear. -/
theorem claim_C5_amended_witness :
    "10.0.0.5 ecdsa AAAA" ∈ readEntries (add_host_keys "" ["10.0.0.5:ecdsa:AAAA"]) := by
  have h := (claim_C5_amended "" ["10.0.0.5:ecdsa:AAAA"] (by decide)).2.1
    "10.0.0.5:ecdsa:AAAA" (by decide) (by decide)
  rwa [show keyLine "10.0.0.5:ecdsa:AAAA" = "10.0.0.5 ecdsa AAAA" from by decide] at h

end ClaimC5

section ClaimC6

/-- C6: `region` applies the fixed pattern
`^([a-z]\x7b2\x7d-[a-z]+-[1-9][0-9]*)([a-z])$` to the availability zone:
`us-west-2a` yields the first capture group `us-west-2` (also with a
trailing newline, which `$` tolerates in Python's `re`); `uswest2a`
does not match and fails the assertion (modelled as `none`); in
general, a zone of the pattern's shape yields the capture group
(everything up to and excluding the final letter) and a non-matching
zone yields `none`. -/
theorem claim_C6_region (zone : String) :
    region "us-west-2a" = some "us-west-2" ∧
    region "us-west-2a\n" = some "us-west-2" ∧
    region "uswest2a" = none ∧
    (∀ (c1 c2 : Char) (word : List Char) (d : Char) (digits : List Char)
      (z : Char) (nl : List Char),
      zone.toList = c1 :: c2 :: '-' :: word ++ '-' :: d :: digits ++ z :: nl →
      isLowerAlpha c1 = true → isLowerAlpha c2 = true →
      word ≠ [] → (∀ c ∈ word, isLowerAlpha c = true) →
      '1' ≤ d → d ≤ '9' → (∀ c ∈ digits, isDigit09 c = true) →
      isLowerAlpha z = true → (nl = [] ∨ nl = ['\n']) →
      region zone
        = some (String.mk (c1 :: c2 :: '-' :: word ++ '-' :: d :: digits))) ∧
    (¬zoneMatches zone → region zone = none) := by
  refine ⟨by decide, by decide, by decide, ?sound, ?complete⟩
  case sound =>
    intro c1 c2 word d digits z nl htl h1 h2 hw hwall hd1 hd9 hdig hz hnl
    have hzdig : isDigit09 z = false := by
      have hza : 'a' ≤ z := by
        have hz' := hz
        unfold isLowerAlpha at hz'
        rw [Bool.and_eq_true] at hz'
        exact of_decide_eq_true hz'.1
      have h9 : ¬(z ≤ '9') := by
        intro hle
        exact absurd (le_trans hza hle) (by decide)
      unfold isDigit09
      rw [decide_eq_false h9]
      exact Bool.and_false _
    have htl' : zone.toList
        = c1 :: c2 :: '-' :: (word ++ '-' :: d :: (digits ++ z :: nl)) := by
      rw [htl]
      simp [List.append_assoc]
    have hta : (word ++ '-' :: d :: (digits ++ z :: nl)).takeWhile isLowerAlpha
        = word := takeWhile_append_cons _ word '-' _ hwall (by decide)
    have htb : (word ++ '-' :: d :: (digits ++ z :: nl)).dropWhile isLowerAlpha
        = '-' :: d :: (digits ++ z :: nl) :=
      dropWhile_append_cons _ word '-' _ hwall (by decide)
    have htc : (digits ++ z :: nl).takeWhile isDigit09 = digits :=
      takeWhile_append_cons _ digits z nl hdig hzdig
    have htd : (digits ++ z :: nl).dropWhile isDigit09 = z :: nl :=
      dropWhile_append_cons _ digits z nl hdig hzdig
    have hre : regionEnd (z :: nl) = true := by
      rcases hnl with rfl | rfl <;> simp [regionEnd, hz]
    unfold region
    rw [htl']
    simp [regionList, regionDash, regionNum, hta, htb, htc, htd, hre,
      h1, h2, hw, hd1, hd9]
  case complete =>
    intro hnm
    cases hreg : region zone with
    | none => rfl
    | some r =>
      exfalso
      apply hnm
      unfold region at hreg
      have hrl : ∃ t, regionList zone.toList = some t := by
        cases h : regionList zone.toList with
        | none => rw [h] at hreg; simp at hreg
        | some t => exact ⟨t, rfl⟩
      obtain ⟨t, hrl⟩ := hrl
      unfold regionList at hrl
      split at hrl
      case h_2 => simp at hrl
      case h_1 =>
        rename_i c1 c2 rest heq
        split at hrl
        case isFalse => simp at hrl
        case isTrue h12 =>
          split at hrl
          case isFalse => simp at hrl
          case isTrue hwne =>
            split at hrl
            case h_2 => simp at hrl
            case h_1 =>
              rename_i hopt d rest2 heq2
              split at hrl
              case isFalse => simp at hrl
              case isTrue hend =>
                unfold regionDash at heq2
                split at heq2
                case h_2 => simp at heq2
                case h_1 =>
                  rename_i tail heqd
                  unfold regionNum at heq2
                  split at heq2
                  case h_2 => simp at heq2
                  case h_1 =>
                    rename_i d' rest2'
                    split at heq2
                    case isFalse => simp at heq2
                    case isTrue hguard =>
                      simp only [Option.some.injEq, Prod.mk.injEq] at heq2
                      obtain ⟨hd', hrest2'⟩ := heq2
                      subst hd'
                      subst hrest2'
                      rw [Bool.and_eq_true] at h12 hguard
                      unfold regionEnd at hend
                      split at hend
                      case h_3 => exact absurd hend (by simp)
                      case h_1 =>
                        rename_i z heqz
                        refine ⟨c1, c2, rest.takeWhile isLowerAlpha, d',
                          rest2'.takeWhile isDigit09, z, [], ?_, h12.1, h12.2,
                          hwne, fun c hc => List.mem_takeWhile_imp hc,
                          of_decide_eq_true hguard.1, of_decide_eq_true hguard.2,
                          fun c hc => List.mem_takeWhile_imp hc, hend, Or.inl rfl⟩
                        rw [heq]
                        have hr : rest = rest.takeWhile isLowerAlpha
                            ++ '-' :: d' :: rest2' := by
                          conv_lhs => rw [← List.takeWhile_append_dropWhile
                            (p := isLowerAlpha) (l := rest)]
                          rw [heqd]
                        have hr2 : rest2' = rest2'.takeWhile isDigit09 ++ [z] := by
                          conv_lhs => rw [← List.takeWhile_append_dropWhile
                            (p := isDigit09) (l := rest2')]
                          rw [heqz]
                        conv_lhs => rw [hr]
                        conv_lhs => rw [hr2]
                        simp [List.append_assoc]
                      case h_2 =>
                        rename_i z heqz
                        refine ⟨c1, c2, rest.takeWhile isLowerAlpha, d',
                          rest2'.takeWhile isDigit09, z, ['\n'], ?_, h12.1, h12.2,
                          hwne, fun c hc => List.mem_takeWhile_imp hc,
                          of_decide_eq_true hguard.1, of_decide_eq_true hguard.2,
                          fun c hc => List.mem_takeWhile_imp hc, hend, Or.inr rfl⟩
                        rw [heq]
                        have hr : rest = rest.takeWhile isLowerAlpha
                            ++ '-' :: d' :: rest2' := by
                          conv_lhs => rw [← List.takeWhile_append_dropWhile
                            (p := isLowerAlpha) (l := rest)]
                          rw [heqd]
                        have hr2 : rest2'
                            = rest2'.takeWhile isDigit09 ++ [z, '\n'] := by
                          conv_lhs => rw [← List.takeWhile_append_dropWhile
                            (p := isDigit09) (l := rest2')]
                          rw [heqz]
                        conv_lhs => rw [hr]
                        conv_lhs => rw [hr2]
                        simp [List.append_assoc]

/-- Witness for C6: `eu-central-1b` matches the pattern and its region
is `eu-central-1`; `sa-east-1c` followed by a trailing newline also
matches (Python's `$` semantics) and its region is `sa-east-1`. -/
theorem claim_C6_region_witness :
    region "eu-central-1b"
        = some (String.mk ('e' :: 'u' :: '-' :: ['c', 'e', 'n', 't', 'r', 'a', 'l']
          ++ '-' :: '1' :: [])) ∧
    String.mk ('e' :: 'u' :: '-' :: ['c', 'e', 'n', 't', 'r', 'a', 'l']
        ++ '-' :: '1' :: []) = "eu-central-1" ∧
    region "sa-east-1c\n"
        = some (String.mk ('s' :: 'a' :: '-' :: ['e', 'a', 's', 't']
          ++ '-' :: '1' :: [])) ∧
    String.mk ('s' :: 'a' :: '-' :: ['e', 'a', 's', 't'] ++ '-' :: '1' :: [])
      = "sa-east-1" :=
  ⟨(claim_C6_region "eu-central-1b").2.2.2.1 'e' 'u'
      ['c', 'e', 'n', 't', 'r', 'a', 'l'] '1' [] 'b' []
      (by decide) (by decide) (by decide) (by decide) (by decide) (by decide)
      (by decide) (by decide) (by decide) (Or.inl rfl),
    by decide,
    (claim_C6_region "sa-east-1c\n").2.2.2.1 's' 'a'
      ['e', 'a', 's', 't'] '1' [] 'c' ['\n']
      (by decide) (by decide) (by decide) (by decide) (by decide) (by decide)
      (by decide) (by decide) (by decide) (Or.inr rfl),
    by decide⟩

end ClaimC6

end SparkTools

